import Mathlib

set_option maxHeartbeats 2000000

/-!
Verification of the trade-bot indicator engine.

The definitions below are a shallow embedding of the indicator code in
`tradingbot.py`, `app10.py` and `app11.py`.  Prices and volumes are modelled
as exact rationals; a pandas `NaN` entry is modelled as `none` in an
`Option ℚ` (or `Option ℝ`) valued series.  Where IEEE special values other
than NaN can arise (float division by zero) the small type `FV` models the
four relevant cases: finite value, `+inf`, `-inf`, `NaN`.
-/

namespace TB

/-- One OHLCV bar (a row of the downloaded dataframe). -/
structure Bar where
  opn : ℚ
  high : ℚ
  low : ℚ
  close : ℚ
  volume : ℚ
deriving DecidableEq

/-- Default bar used only as a `getD` fallback for out-of-range indices. -/
def barD : Bar := ⟨0, 0, 0, 0, 0⟩

/-- The trailing window of `w` entries of `zs` ending at index `i`
(pandas `rolling(w)` window; meaningful when `w ≤ i + 1`). -/
def windowP (zs : List ℚ) (w i : ℕ) : List ℚ :=
  (List.range w).map fun j => zs.getD (i + 1 - w + j) 0

/-- `Series.rolling(w).sum()` for a NaN-free series: the window sum, with the
first `w - 1` entries undefined. -/
def rollSumP (zs : List ℚ) (w : ℕ) : List (Option ℚ) :=
  (List.range zs.length).map fun i =>
    if w ≤ i + 1 then some (windowP zs w i).sum else none

/-- `Series.rolling(w).mean()` for a NaN-free series. -/
def rollMeanP (zs : List ℚ) (w : ℕ) : List (Option ℚ) :=
  (List.range zs.length).map fun i =>
    if w ≤ i + 1 then some ((windowP zs w i).sum / (w : ℚ)) else none

/-- Sequence a list of optional values: `some` of the list of values when every
entry is defined, `none` as soon as one entry is NaN. -/
def seqO : List (Option ℚ) → Option (List ℚ)
  | [] => some []
  | none :: _ => none
  | some x :: rest => (seqO rest).map fun l => x :: l

/-- The trailing window of `w` entries of an optional-valued series. -/
def winAt (xs : List (Option ℚ)) (w i : ℕ) : List (Option ℚ) :=
  (List.range w).map fun j => xs.getD (i + 1 - w + j) none

/-- `Series.rolling(w).mean()` on a series that may contain NaN: pandas (with
the default `min_periods`) yields NaN unless the window holds `w` defined
values. -/
def rollMeanO (xs : List (Option ℚ)) (w : ℕ) : List (Option ℚ) :=
  (List.range xs.length).map fun i =>
    if w ≤ i + 1 then (seqO (winAt xs w i)).map (fun l => l.sum / (w : ℚ))
    else none

/-- Sample variance (`ddof = 1`) of a window of length `w`, as used by pandas
`rolling(w).std()`. -/
def sampleVar (l : List ℚ) (w : ℕ) : ℚ :=
  (l.map fun x => (x - l.sum / (w : ℚ)) ^ 2).sum / ((w : ℚ) - 1)

/-- `Series.rolling(w).std()` for a NaN-free series: sample standard deviation
of each full window; pandas additionally yields NaN everywhere when `w = 1`
(division by `ddof` zero), captured by the `2 ≤ w` guard. -/
noncomputable def rollStdP (zs : List ℚ) (w : ℕ) : List (Option ℝ) :=
  (List.range zs.length).map fun i =>
    if 2 ≤ w ∧ w ≤ i + 1 then
      some (Real.sqrt ((sampleVar (windowP zs w i) w : ℚ) : ℝ))
    else none

/-- Recursive worker for `ewm(span, adjust=False).mean()`: each step applies
`e = α·y + (1-α)·prev`. -/
def ewmGo (a : ℚ) (prev : ℚ) : List ℚ → List ℚ
  | [] => []
  | y :: ys => (a * y + (1 - a) * prev) :: ewmGo a (a * y + (1 - a) * prev) ys

/-- `Series.ewm(span=span, adjust=False).mean()` (used by `tradingbot.py` for
MACD and CVO): seeded with the first value, then the standard recurrence with
`α = 2 / (span + 1)`. -/
def ewmAdjFalse (span : ℕ) : List ℚ → List ℚ
  | [] => []
  | x :: rest => x :: ewmGo (2 / ((span : ℚ) + 1)) x rest

/-- `Series.ewm(span=span).mean()` with the pandas default `adjust=True`
(used by `app10.py` for EMA9/21/50, MACD and the signal line):
`y_i = (Σ_j (1-α)^j x_{i-j}) / (Σ_j (1-α)^j)`. -/
def ewmAdjTrue (span : ℕ) (xs : List ℚ) : List ℚ :=
  (List.range xs.length).map fun i =>
    (((List.range (i + 1)).map fun j =>
        (1 - 2 / ((span : ℚ) + 1)) ^ j * xs.getD (i - j) 0).sum) /
    (((List.range (i + 1)).map fun j => (1 - 2 / ((span : ℚ) + 1)) ^ j).sum)

/-! ### tradingbot.py indicator functions -/

/-- Per-index body of `add_bollinger`'s upper band `ma + std*num_std`
(undefined whenever the rolling mean or rolling std is NaN there). -/
noncomputable def bbUpperAt (closes : List ℚ) (p : ℕ) (k : ℚ) (i : ℕ) : Option ℝ :=
  match (rollMeanP closes p).getD i none, (rollStdP closes p).getD i none with
  | some m, some s => some ((m : ℝ) + s * (k : ℝ))
  | _, _ => none

/-- Per-index body of `add_bollinger`'s lower band `ma - std*num_std`. -/
noncomputable def bbLowerAt (closes : List ℚ) (p : ℕ) (k : ℚ) (i : ℕ) : Option ℝ :=
  match (rollMeanP closes p).getD i none, (rollStdP closes p).getD i none with
  | some m, some s => some ((m : ℝ) - s * (k : ℝ))
  | _, _ => none

/-- `add_bollinger(df, period, num_std)` from `tradingbot.py`: returns
`(upper, ma, lower)` with `ma` the rolling mean of Close, `std` the rolling
sample standard deviation over the same window, `upper = ma + std*num_std`,
`lower = ma - std*num_std`. -/
noncomputable def add_bollinger (closes : List ℚ) (p : ℕ) (k : ℚ) :
    List (Option ℝ) × List (Option ℝ) × List (Option ℝ) :=
  ((List.range closes.length).map (bbUpperAt closes p k),
   (rollMeanP closes p).map (Option.map fun q : ℚ => (q : ℝ)),
   (List.range closes.length).map (bbLowerAt closes p k))

/-- `add_macd(df, fast, slow, signal)` from `tradingbot.py`: both EMAs use
`adjust=False`; `macd = ema_fast - ema_slow`, the signal line is the
`adjust=False` EMA of `macd`, and the histogram is their difference.
Returns `(macd, macd_signal, macd_hist)`. -/
def add_macd (closes : List ℚ) (fast slow signal : ℕ) :
    List ℚ × List ℚ × List ℚ :=
  ((List.range closes.length).map fun i =>
      (ewmAdjFalse fast closes).getD i 0 - (ewmAdjFalse slow closes).getD i 0,
   ewmAdjFalse signal ((List.range closes.length).map fun i =>
      (ewmAdjFalse fast closes).getD i 0 - (ewmAdjFalse slow closes).getD i 0),
   (List.range closes.length).map fun i =>
      ((List.range closes.length).map fun j =>
          (ewmAdjFalse fast closes).getD j 0 -
            (ewmAdjFalse slow closes).getD j 0).getD i 0 -
        (ewmAdjFalse signal ((List.range closes.length).map fun j =>
          (ewmAdjFalse fast closes).getD j 0 -
            (ewmAdjFalse slow closes).getD j 0)).getD i 0)

/-- `add_dpo(df, period)` from `tradingbot.py`: `shift = int(period/2 + 1)`
(for a natural `period` this is `period / 2 + 1` rounded down), and
`DPO[i] = Close[i - shift] - SMA(Close, period)[i]`, NaN when either term
is unavailable. -/
def add_dpo (closes : List ℚ) (p : ℕ) : List (Option ℚ) :=
  (List.range closes.length).map fun i =>
    match (if p / 2 + 1 ≤ i then some (closes.getD (i - (p / 2 + 1)) 0) else none),
        (rollMeanP closes p).getD i none with
    | some a, some b => some (a - b)
    | _, _ => none

/-- `add_cvo(df, short, long)` from `tradingbot.py`:
`cvo = 100 * (vol_short - vol_long) / vol_long.replace(0, nan)` with both
volume EMAs computed with `adjust=False`.  Returns `(cvo, vol_short, vol_long)`. -/
def add_cvo (volumes : List ℚ) (short lon : ℕ) :
    List (Option ℚ) × List ℚ × List ℚ :=
  ((List.range volumes.length).map fun i =>
      if (ewmAdjFalse lon volumes).getD i 0 = 0 then none
      else some (100 * ((ewmAdjFalse short volumes).getD i 0 -
          (ewmAdjFalse lon volumes).getD i 0) / (ewmAdjFalse lon volumes).getD i 0),
   ewmAdjFalse short volumes,
   ewmAdjFalse lon volumes)

/-! ### add_adx from tradingbot.py -/

/-- `high[i]` of the flattened High column. -/
def highAt (bars : List Bar) (i : ℕ) : ℚ := (bars.getD i barD).high

/-- `low[i]` of the flattened Low column. -/
def lowAt (bars : List Bar) (i : ℕ) : ℚ := (bars.getD i barD).low

/-- `close[i]` of the flattened Close column. -/
def closeAt (bars : List Bar) (i : ℕ) : ℚ := (bars.getD i barD).close

/-- `up[j] = high[j+1] - high[j]`. -/
def upAt (bars : List Bar) (j : ℕ) : ℚ := highAt bars (j + 1) - highAt bars j

/-- `down[j] = low[j] - low[j+1]`. -/
def downAt (bars : List Bar) (j : ℕ) : ℚ := lowAt bars j - lowAt bars (j + 1)

/-- `tr[j] = max(high[j+1]-low[j+1], |high[j+1]-close[j]|, |low[j+1]-close[j]|)`. -/
def trAt (bars : List Bar) (j : ℕ) : ℚ :=
  max (highAt bars (j + 1) - lowAt bars (j + 1))
    (max |highAt bars (j + 1) - closeAt bars j| |lowAt bars (j + 1) - closeAt bars j|)

/-- `plus_dm[j] = up[j]` when `up > down` and `up > 0`, else `0`. -/
def plusDMAt (bars : List Bar) (j : ℕ) : ℚ :=
  if downAt bars j < upAt bars j ∧ 0 < upAt bars j then upAt bars j else 0

/-- `minus_dm[j] = down[j]` when `down > up` and `down > 0`, else `0`. -/
def minusDMAt (bars : List Bar) (j : ℕ) : ℚ :=
  if upAt bars j < downAt bars j ∧ 0 < downAt bars j then downAt bars j else 0

/-- The length-`(n-1)` true-range list of `add_adx`. -/
def trList (bars : List Bar) : List ℚ :=
  (List.range (bars.length - 1)).map (trAt bars)

/-- The length-`(n-1)` `plus_dm` list of `add_adx`. -/
def plusDMList (bars : List Bar) : List ℚ :=
  (List.range (bars.length - 1)).map (plusDMAt bars)

/-- The length-`(n-1)` `minus_dm` list of `add_adx`. -/
def minusDMList (bars : List Bar) : List ℚ :=
  (List.range (bars.length - 1)).map (minusDMAt bars)

/-- `100 * (num / den.replace(0, nan))` elementwise: NaN numerator or NaN/zero
denominator gives NaN. -/
def optDiv100 (a b : Option ℚ) : Option ℚ :=
  match a, b with
  | some x, some y => if y = 0 then none else some (100 * x / y)
  | _, _ => none

/-- `plus_di = 100 * (plus_smooth / tr_smooth.replace(0, nan))` where the
smoothed series are rolling sums of length `period`. -/
def plusDI (bars : List Bar) (p : ℕ) : List (Option ℚ) :=
  (List.range (bars.length - 1)).map fun i =>
    optDiv100 ((rollSumP (plusDMList bars) p).getD i none)
      ((rollSumP (trList bars) p).getD i none)

/-- `minus_di = 100 * (minus_smooth / tr_smooth.replace(0, nan))`. -/
def minusDI (bars : List Bar) (p : ℕ) : List (Option ℚ) :=
  (List.range (bars.length - 1)).map fun i =>
    optDiv100 ((rollSumP (minusDMList bars) p).getD i none)
      ((rollSumP (trList bars) p).getD i none)

/-- `dx = 100 * |plus_di - minus_di| / (plus_di + minus_di).replace(0, nan)`. -/
def dxAt (a b : Option ℚ) : Option ℚ :=
  match a, b with
  | some x, some y => if x + y = 0 then none else some (100 * |x - y| / (x + y))
  | _, _ => none

/-- The `dx` series of `add_adx`. -/
def dxList (bars : List Bar) (p : ℕ) : List (Option ℚ) :=
  (List.range (bars.length - 1)).map fun i =>
    dxAt ((plusDI bars p).getD i none) ((minusDI bars p).getD i none)

/-- `adx = dx.rolling(period).mean()`. -/
def adxList (bars : List Bar) (p : ℕ) : List (Option ℚ) :=
  rollMeanO (dxList bars p) p

/-- `add_adx(df, period)` from `tradingbot.py`: on fewer than two bars it
returns three all-NaN series of the input length; otherwise the per-bar
difference series have length `n - 1`, so `pad_len = 1` and each output is
front-padded with a single NaN to restore length `n`.
Returns `(plus_di_full, minus_di_full, adx_full)`. -/
def add_adx (bars : List Bar) (p : ℕ) :
    List (Option ℚ) × List (Option ℚ) × List (Option ℚ) :=
  if bars.length < 2 then
    (List.replicate bars.length none, List.replicate bars.length none,
     List.replicate bars.length none)
  else
    (none :: plusDI bars p, none :: minusDI bars p, none :: adxList bars p)

/-! ### fibonacci_levels from tradingbot.py -/

/-- Maximum of a list of rationals (`Series.max()`); `0` only for the empty
list, which the callers exclude. -/
def maxQ : List ℚ → ℚ
  | [] => 0
  | x :: rest => rest.foldl max x

/-- Minimum of a list of rationals (`Series.min()`). -/
def minQ : List ℚ → ℚ
  | [] => 0
  | x :: rest => rest.foldl min x

/-- `df.tail(lookback)`: the last `lookback` bars (all bars when the series is
shorter). -/
def fibWindow (bars : List Bar) (lookback : ℕ) : List Bar :=
  bars.drop (bars.length - lookback)

/-- `high = window["High"].max()`. -/
def fibSwingHigh (bars : List Bar) (lookback : ℕ) : ℚ :=
  maxQ ((fibWindow bars lookback).map (·.high))

/-- `low = window["Low"].min()`. -/
def fibSwingLow (bars : List Bar) (lookback : ℕ) : ℚ :=
  minQ ((fibWindow bars lookback).map (·.low))

/-- `diff = high - low`. -/
def fibDiff (bars : List Bar) (lookback : ℕ) : ℚ :=
  fibSwingHigh bars lookback - fibSwingLow bars lookback

/-- `fibonacci_levels(df, lookback)` from `tradingbot.py`: returns `{}` when
fewer than two bars are available, otherwise the labelled retracement levels
`high - ratio * diff` over the last `lookback` bars. -/
def fibonacci_levels (bars : List Bar) (lookback : ℕ) : List (String × ℚ) :=
  if bars.length < 2 then []
  else
    [("Swing High", fibSwingHigh bars lookback),
     ("Swing Low", fibSwingLow bars lookback),
     ("0.0", fibSwingHigh bars lookback),
     ("0.236", fibSwingHigh bars lookback - 236 / 1000 * fibDiff bars lookback),
     ("0.382", fibSwingHigh bars lookback - 382 / 1000 * fibDiff bars lookback),
     ("0.5", fibSwingHigh bars lookback - 1 / 2 * fibDiff bars lookback),
     ("0.618", fibSwingHigh bars lookback - 618 / 1000 * fibDiff bars lookback),
     ("0.786", fibSwingHigh bars lookback - 786 / 1000 * fibDiff bars lookback),
     ("1.0", fibSwingLow bars lookback)]

/-- Value of the level labelled `key` (0 when absent). -/
def fibLevel (bars : List Bar) (lookback : ℕ) (key : String) : ℚ :=
  ((fibonacci_levels bars lookback).lookup key).getD 0

/-! ### app10.py: EMAs, RSI, confidence score, final verdict

Float special values: `app10.py` computes `rs = gain_avg / loss_avg` and
`RSI = 100 - 100/(1+rs)` with IEEE float semantics, where a positive value
divided by zero is `+inf` and `0/0` is NaN.  `FV` models exactly the four
cases that can arise. -/

/-- An IEEE float value as far as the embedded code can observe it:
a finite (exact rational) value, `+inf`, `-inf`, or NaN. -/
inductive FV where
  | fin : ℚ → FV
  | pinf : FV
  | ninf : FV
  | nan : FV
deriving DecidableEq

/-- Float division of two possibly-NaN quantities: any NaN operand gives NaN;
a nonzero numerator over (positive) zero gives a signed infinity; `0/0` is
NaN. -/
def fdiv : Option ℚ → Option ℚ → FV
  | some a, some b =>
    if b ≠ 0 then FV.fin (a / b)
    else if 0 < a then FV.pinf
    else if a < 0 then FV.ninf
    else FV.nan
  | _, _ => FV.nan

/-- `1 + x` on float values. -/
def fvAdd1 : FV → FV
  | FV.fin q => FV.fin (1 + q)
  | FV.pinf => FV.pinf
  | FV.ninf => FV.ninf
  | FV.nan => FV.nan

/-- `100 / x` on float values (the denominator `1 + rs` in the RSI formula):
`100 / ±inf = 0`, `100 / 0 = +inf` (positive IEEE zero), NaN propagates. -/
def fvDiv100By : FV → FV
  | FV.fin q => if q ≠ 0 then FV.fin (100 / q) else FV.pinf
  | FV.pinf => FV.fin 0
  | FV.ninf => FV.fin 0
  | FV.nan => FV.nan

/-- `100 - x` on float values. -/
def fvSub100 : FV → FV
  | FV.fin q => FV.fin (100 - q)
  | FV.pinf => FV.ninf
  | FV.ninf => FV.pinf
  | FV.nan => FV.nan

/-- `df["EMA9"]` of `app10.py` (pandas default `adjust=True`). -/
def ema9 (closes : List ℚ) : List ℚ := ewmAdjTrue 9 closes

/--`df["EMA21"]` of `app10.py`. -/
def ema21 (closes : List ℚ) : List ℚ := ewmAdjTrue 21 closes

/-- `df["EMA50"]` of `app10.py`. -/
def ema50 (closes : List ℚ) : List ℚ := ewmAdjTrue 50 closes

/-- `delta = df["Close"].diff()`: NaN at index 0, else `close[i] - close[i-1]`. -/
def deltaList (closes : List ℚ) : List (Option ℚ) :=
  (List.range closes.length).map fun i =>
    if i = 0 then none else some (closes.getD i 0 - closes.getD (i - 1) 0)

/-- `gain = delta.clip(lower=0)`. -/
def gainList (closes : List ℚ) : List (Option ℚ) :=
  (deltaList closes).map (Option.map fun d => max d 0)

/-- `loss = -delta.clip(upper=0)`. -/
def lossList (closes : List ℚ) : List (Option ℚ) :=
  (deltaList closes).map (Option.map fun d => max (-d) 0)

/-- `gain.rolling(14).mean()`. -/
def avgGain (closes : List ℚ) : List (Option ℚ) := rollMeanO (gainList closes) 14

/-- `loss.rolling(14).mean()`. -/
def avgLoss (closes : List ℚ) : List (Option ℚ) := rollMeanO (lossList closes) 14

/-- One entry of `df["RSI"] = 100 - (100 / (1 + rs))` with
`rs = avgGain / avgLoss` under float semantics. -/
def rsiOf (g l : Option ℚ) : FV := fvSub100 (fvDiv100By (fvAdd1 (fdiv g l)))

/-- The RSI series of `app10.py`. -/
def rsiList (closes : List ℚ) : List FV :=
  (List.range closes.length).map fun i =>
    rsiOf ((avgGain closes).getD i none) ((avgLoss closes).getD i none)

/-- The Bollinger Bands of `app10.py` (lines 87-91): rolling window 20,
`BB_UP = mid + 2*std`, `BB_LOW = mid - 2*std` — the same computation as
`add_bollinger` with `period = 20`, `num_std = 2`. -/
noncomputable def app10BB (closes : List ℚ) :
    List (Option ℝ) × List (Option ℝ) × List (Option ℝ) :=
  add_bollinger closes 20 2

/-- `1` for a check that holds, `0` otherwise. -/
def b2n (b : Bool) : ℕ := if b then 1 else 0

/-- The `bullish` counter of `app10.py`: one point per satisfied check out of
the six boolean conditions. -/
def bullishCount (c1 c2 c3 c4 c5 c6 : Bool) : ℕ :=
  b2n c1 + b2n c2 + b2n c3 + b2n c4 + b2n c5 + b2n c6

/-- `confidence = int((bullish / checks) * 100)` with `checks = 6`.  For
`bullish ∈ {0,…,6}` the float computation truncates to exactly
`⌊100 * bullish / 6⌋`, embedded as natural division. -/
def confidence (bullish : ℕ) : ℕ := 100 * bullish / 6

/-- The three possible final verdicts of `app10.py`. -/
inductive Verdict where
  | buy : Verdict
  | sell : Verdict
  | hold : Verdict
deriving DecidableEq

/-- The Final Verdict logic of `app10.py` (lines 192-198): BUY when
`confidence ≥ 70`, SELL when `confidence ≤ 35`, otherwise HOLD. -/
def finalVerdict (conf : ℕ) : Verdict :=
  if 70 ≤ conf then Verdict.buy
  else if conf ≤ 35 then Verdict.sell
  else Verdict.hold

/-! ### app11.py: BB60 width -/

/-- `df["BB60_width"] = (bb60_h - bb60_l) / df["Close"]` from `app11.py`
(line 99), elementwise with float division semantics. -/
def bb60Width (hband lband closes : List ℚ) : List FV :=
  (List.range closes.length).map fun i =>
    fdiv (some (hband.getD i 0 - lband.getD i 0)) (some (closes.getD i 0))

/-! ### Predicates packaging the specified properties, and concrete inputs -/

/-- Every defined entry of the optional series lies in `[0, 100]`. -/
def boundedBy100 (xs : List (Option ℚ)) : Prop :=
  ∀ q : ℚ, some q ∈ xs → 0 ≤ q ∧ q ≤ 100

/-- At every index of a `(upper, mid, lower)` band triple where all three
values are defined, `lower ≤ mid` and `mid ≤ upper`. -/
def bandsOrdered (t : List (Option ℝ) × List (Option ℝ) × List (Option ℝ)) : Prop :=
  ∀ i : ℕ, ∀ u ∈ t.1.getD i none, ∀ m ∈ t.2.1.getD i none, ∀ l ∈ t.2.2.getD i none,
    l ≤ m ∧ m ≤ u

/-- The specified shape of the Fibonacci result: level "0.0" is the swing
high, level "1.0" is the swing low, and the seven ratio levels decrease as
the ratio increases. -/
def fibSpecHolds (bars : List Bar) (lb : ℕ) : Prop :=
  (fibonacci_levels bars lb).lookup "0.0" = some (fibSwingHigh bars lb) ∧
  (fibonacci_levels bars lb).lookup "1.0" = some (fibSwingLow bars lb) ∧
  fibLevel bars lb "0.236" ≤ fibLevel bars lb "0.0" ∧
  fibLevel bars lb "0.382" ≤ fibLevel bars lb "0.236" ∧
  fibLevel bars lb "0.5" ≤ fibLevel bars lb "0.382" ∧
  fibLevel bars lb "0.618" ≤ fibLevel bars lb "0.5" ∧
  fibLevel bars lb "0.786" ≤ fibLevel bars lb "0.618" ∧
  fibLevel bars lb "1.0" ≤ fibLevel bars lb "0.786"

/-- A single-bar series. -/
def oneBar : List Bar := [⟨1, 2, 0, 1, 5⟩]

/-- Five bars of constant close 100. -/
def const5 : List ℚ := [100, 100, 100, 100, 100]

/-- Fifteen bars of constant close 100. -/
def const15 : List ℚ :=
  [100, 100, 100, 100, 100, 100, 100, 100, 100, 100, 100, 100, 100, 100, 100]

/-- Sixteen strictly increasing closes. -/
def inc16 : List ℚ := [0, 1, 2, 3, 4, 5, 6, 7, 8, 9, 10, 11, 12, 13, 14, 15]

/-- Two bars with a well-defined trend, used to exercise `add_adx`. -/
def demoBars : List Bar := [⟨1, 2, 0, 1, 0⟩, ⟨3, 4, 2, 3, 0⟩]

/-- The spec's concrete Fibonacci scenario: High = [110, 100], Low = [90, 95]. -/
def bars2 : List Bar := [⟨1, 110, 90, 100, 0⟩, ⟨1, 100, 95, 96, 0⟩]

/-! ### Helper lemmas about lists, windows and EMAs -/

theorem length_rangeMap {α : Type} (f : ℕ → α) (n : ℕ) :
    ((List.range n).map f).length = n := by
  simp

theorem rangeMap_getD {α : Type} (f : ℕ → α) (n i : ℕ) (d : α) :
    ((List.range n).map f).getD i d = if i < n then f i else d := by
  rw [List.getD_eq_getElem?_getD]
  by_cases h : i < n
  · simp [List.getElem?_map, List.getElem?_range, h]
  · have : ((List.range n).map f).length ≤ i := by
      simpa [List.length_map, List.length_range] using Nat.le_of_not_lt h
    simp [List.getElem?_eq_none this, h]

theorem rangeMap_mem {α : Type} {f : ℕ → α} {n : ℕ} {x : α}
    (h : x ∈ (List.range n).map f) : ∃ i, i < n ∧ f i = x := by
  rcases List.mem_map.1 h with ⟨i, hi, hfi⟩
  exact ⟨i, List.mem_range.1 hi, hfi⟩

theorem getD_out {α : Type} (l : List α) (i : ℕ) (d : α) (h : l.length ≤ i) :
    l.getD i d = d := by
  rw [List.getD_eq_getElem?_getD, List.getElem?_eq_none h]
  rfl

theorem getD_mem {α : Type} (l : List α) (i : ℕ) (d : α) (h : i < l.length) :
    l.getD i d ∈ l := by
  rw [List.getD_eq_getElem?_getD, List.getElem?_eq_getElem h]
  exact List.getElem_mem h

theorem seqO_length : ∀ {os : List (Option ℚ)} {l : List ℚ},
    seqO os = some l → l.length = os.length := by
  intro os
  induction os with
  | nil => intro l h; cases h; rfl
  | cons o rest ih =>
    intro l h
    cases o with
    | none => exact absurd h (by simp [seqO])
    | some x =>
      rcases Option.map_eq_some'.1 h with ⟨t, ht, rfl⟩
      simp [ih ht]

theorem seqO_mem : ∀ {os : List (Option ℚ)} {l : List ℚ},
    seqO os = some l → ∀ x ∈ l, some x ∈ os := by
  intro os
  induction os with
  | nil => intro l h; cases h; intro x hx; cases hx
  | cons o rest ih =>
    intro l h x hx
    cases o with
    | none => exact absurd h (by simp [seqO])
    | some y =>
      rcases Option.map_eq_some'.1 h with ⟨t, ht, rfl⟩
      rcases List.mem_cons.1 hx with hxy | hxt
      · exact hxy ▸ List.mem_cons_self _ _
      · exact List.mem_cons_of_mem _ (ih ht x hxt)

theorem winAt_mem {xs : List (Option ℚ)} {w i : ℕ} {o : Option ℚ}
    (h : o ∈ winAt xs w i) : o ∈ xs ∨ o = none := by
  rcases rangeMap_mem h with ⟨j, _, rfl⟩
  by_cases hj : i + 1 - w + j < xs.length
  · exact Or.inl (getD_mem xs _ none hj)
  · exact Or.inr (getD_out xs _ none (Nat.le_of_not_lt hj))

theorem winAt_length (xs : List (Option ℚ)) (w i : ℕ) :
    (winAt xs w i).length = w := by
  simp [winAt]

theorem ewmGo_length (a p : ℚ) (ys : List ℚ) : (ewmGo a p ys).length = ys.length := by
  induction ys generalizing p with
  | nil => rfl
  | cons y ts ih => simp [ewmGo, ih]

theorem ewmAdjFalse_length (span : ℕ) (xs : List ℚ) :
    (ewmAdjFalse span xs).length = xs.length := by
  cases xs with
  | nil => rfl
  | cons x rest => simp [ewmAdjFalse, ewmGo_length]

theorem ewmAdjTrue_length (span : ℕ) (xs : List ℚ) :
    (ewmAdjTrue span xs).length = xs.length := by
  simp [ewmAdjTrue]

theorem ewmGo_getD (a : ℚ) (ys : List ℚ) (p : ℚ) (i : ℕ) (h : i < ys.length) :
    (ewmGo a p ys).getD i 0 =
      a * ys.getD i 0 +
        (1 - a) * (if i = 0 then p else (ewmGo a p ys).getD (i - 1) 0) := by
  induction ys generalizing p i with
  | nil => exact absurd h (by simp)
  | cons y ts ih =>
    cases i with
    | zero => simp [ewmGo]
    | succ j =>
      have hj : j < ts.length := by simpa using h
      have step := ih ((a * y + (1 - a) * p)) j hj
      cases j with
      | zero =>
        simp only [ewmGo, List.getD_cons_succ, List.getD_cons_zero] at step ⊢
        simpa using step
      | succ m =>
        simp only [ewmGo, List.getD_cons_succ] at step ⊢
        simpa using step

theorem ewmAdjFalse_recur (span : ℕ) (xs : List ℚ) (i : ℕ) (h : i + 1 < xs.length) :
    (ewmAdjFalse span xs).getD (i + 1) 0 =
      2 / ((span : ℚ) + 1) * xs.getD (i + 1) 0 +
        (1 - 2 / ((span : ℚ) + 1)) * (ewmAdjFalse span xs).getD i 0 := by
  cases xs with
  | nil => exact absurd h (by simp)
  | cons x rest =>
    have hi : i < rest.length := by simpa using h
    have := ewmGo_getD (2 / ((span : ℚ) + 1)) rest x i hi
    simp only [ewmAdjFalse, List.getD_cons_succ]
    rw [this]
    cases i with
    | zero => simp
    | succ m => simp

theorem getD_map_opt {α β : Type} (g : α → β) (l : List (Option α)) (i : ℕ) :
    (l.map (Option.map g)).getD i none = Option.map g (l.getD i none) := by
  by_cases h : i < l.length
  · rw [List.getD_eq_getElem?_getD, List.getD_eq_getElem?_getD, List.getElem?_map,
      List.getElem?_eq_getElem h]
    rfl
  · have h1 : l.length ≤ i := Nat.le_of_not_lt h
    rw [getD_out _ _ _ (by simpa using h1), getD_out _ _ _ h1]
    rfl

theorem getD_replicate_self {α : Type} (n i : ℕ) (a : α) :
    (List.replicate n a).getD i a = a := by
  by_cases h : i < n
  · exact List.eq_of_mem_replicate (getD_mem _ i a (by simpa using h))
  · exact getD_out _ i a (by simpa using Nat.le_of_not_lt h)

theorem ewmGo_zero (a : ℚ) (m : ℕ) :
    ewmGo a 0 (List.replicate m 0) = List.replicate m 0 := by
  induction m with
  | zero => rfl
  | succ t ih => simp [List.replicate_succ, ewmGo, ih]

theorem ewmAdjFalse_zero (span : ℕ) (n : ℕ) :
    ewmAdjFalse span (List.replicate n 0) = List.replicate n 0 := by
  cases n with
  | zero => rfl
  | succ m => simp [List.replicate_succ, ewmAdjFalse, ewmGo_zero]

theorem seqO_eq_none : ∀ {os : List (Option ℚ)}, none ∈ os → seqO os = none := by
  intro os
  induction os with
  | nil => intro h; cases h
  | cons o rest ih =>
    intro h
    cases o with
    | none => rfl
    | some x =>
      have : none ∈ rest := by
        rcases List.mem_cons.1 h with h1 | h1
        · cases h1
        · exact h1
      simp [seqO, ih this]

/-! ### C1 — indicator outputs are index-aligned with the input series -/

/-- **C1.** For every input series and every indicator of `tradingbot.py`
(Bollinger Bands, MACD, DPO, CVO, ADX/DMI), each returned series has the
same length as the input; warm-up entries are undefined values at the front
(in particular DPO's first entry is undefined, and the ADX, +DI and -DI outputs,
whose per-bar differences start at index 1, are front-padded with an
undefined value). -/
theorem indicator_series_lengths (closes volumes : List ℚ) (bars : List Bar)
    (pb pd pa fast slow sig cs cl : ℕ) (k : ℚ) :
    ((add_bollinger closes pb k).1.length = closes.length ∧
      (add_bollinger closes pb k).2.1.length = closes.length ∧
      (add_bollinger closes pb k).2.2.length = closes.length) ∧
    ((add_macd closes fast slow sig).1.length = closes.length ∧
      (add_macd closes fast slow sig).2.1.length = closes.length ∧
      (add_macd closes fast slow sig).2.2.length = closes.length) ∧
    ((add_dpo closes pd).length = closes.length ∧
      (add_dpo closes pd).getD 0 none = none) ∧
    ((add_cvo volumes cs cl).1.length = volumes.length ∧
      (add_cvo volumes cs cl).2.1.length = volumes.length ∧
      (add_cvo volumes cs cl).2.2.length = volumes.length) ∧
    ((add_adx bars pa).1.length = bars.length ∧
      (add_adx bars pa).2.1.length = bars.length ∧
      (add_adx bars pa).2.2.length = bars.length ∧
      (add_adx bars pa).1.getD 0 none = none ∧
      (add_adx bars pa).2.1.getD 0 none = none ∧
      (add_adx bars pa).2.2.getD 0 none = none) := by
  refine ⟨⟨?_, ?_, ?_⟩, ⟨?_, ?_, ?_⟩, ⟨?_, ?_⟩, ⟨?_, ?_, ?_⟩, ?_⟩
  · simp [add_bollinger]
  · simp [add_bollinger, rollMeanP]
  · simp [add_bollinger]
  · simp [add_macd]
  · simp [add_macd, ewmAdjFalse_length]
  · simp [add_macd]
  · simp [add_dpo]
  · have h0 : ¬ (pd / 2 + 1 ≤ 0) := by omega
    simp only [add_dpo, rangeMap_getD]
    by_cases h : 0 < closes.length
    · simp [h, h0]
    · simp [h]
  · simp [add_cvo]
  · simp [add_cvo, ewmAdjFalse_length]
  · simp [add_cvo, ewmAdjFalse_length]
  · unfold add_adx
    by_cases hn : bars.length < 2
    · simp [hn, getD_replicate_self]
    · refine ⟨?_, ?_, ?_, ?_, ?_, ?_⟩ <;>
        simp [hn, plusDI, minusDI, adxList, rollMeanO, dxList, List.getD_cons_zero] <;>
        omega

/-! ### C3 — EMA recurrence and seeding -/

/-- **C3 (amended).** The `adjust=False` EMAs of `tradingbot.py` (the MACD
fast/slow/signal EMAs and both CVO volume EMAs are `ewmAdjFalse`) satisfy
`EMA[0] = value[0]` and `EMA[i] = α·value[i] + (1-α)·EMA[i-1]` with
`α = 2/(span+1)`.  (The `app10.py` EMAs use pandas' default adjusted
weighting instead, so the seeding convention is not uniform across the
indicator code — see the counterexample.) -/
theorem ewm_adjust_false_recurrence (xs : List ℚ) (span : ℕ) (hs : 1 ≤ span)
    (i : ℕ) (h : i + 1 < xs.length) :
    (ewmAdjFalse span xs).getD 0 0 = xs.getD 0 0 ∧
    (ewmAdjFalse span xs).getD (i + 1) 0 =
      2 / ((span : ℚ) + 1) * xs.getD (i + 1) 0 +
        (1 - 2 / ((span : ℚ) + 1)) * (ewmAdjFalse span xs).getD i 0 := by
  constructor
  · cases xs with
    | nil => rfl
    | cons x rest => rfl
  · exact ewmAdjFalse_recur span xs i h

/-- Witness for C3's theorem at span 9 on the series `[1, 2]`. -/
theorem ewm_adjust_false_recurrence_witness :
    (ewmAdjFalse 9 [(1 : ℚ), 2]).getD 0 0 = ([(1 : ℚ), 2]).getD 0 0 ∧
    (ewmAdjFalse 9 [(1 : ℚ), 2]).getD 1 0 =
      2 / (((9 : ℕ) : ℚ) + 1) * ([(1 : ℚ), 2]).getD 1 0 +
        (1 - 2 / (((9 : ℕ) : ℚ) + 1)) * (ewmAdjFalse 9 [(1 : ℚ), 2]).getD 0 0 :=
  ewm_adjust_false_recurrence [1, 2] 9 (by decide) 0 (by decide)

/-- **C3 (counterexample).** `app10.py`'s `EMA9` (pandas default
`adjust=True`) does not satisfy the claimed recurrence: on the series
`[0, 1]` it yields `5/9` at index 1, not `α·1 + (1-α)·0 = 1/5`. -/
theorem ema9_violates_recurrence :
    ¬ ((ema9 [0, 1]).getD 1 0 =
        2 / (((9 : ℕ) : ℚ) + 1) * ([(0 : ℚ), 1]).getD 1 0 +
          (1 - 2 / (((9 : ℕ) : ℚ) + 1)) * (ema9 [0, 1]).getD 0 0) := by
  norm_num [ema9, ewmAdjTrue, rangeMap_getD, List.range_succ]

/-! ### C6 — MACD does not validate fast < slow -/

/-- **C6 (counterexample).** `add_macd` performs no parameter validation:
called with `fast = slow = 26` it completes normally and returns a full
(identically zero) result instead of failing with `InvalidParameter`. -/
theorem macd_accepts_fast_eq_slow :
    add_macd [1, 2, 3] 26 26 9 = ([0, 0, 0], [0, 0, 0], [0, 0, 0]) := by
  norm_num [add_macd, ewmAdjFalse, ewmGo, rangeMap_getD, List.range_succ]

/-- **C6 (amended).** `add_macd` never checks `fast < slow`; with
`fast = slow` the computation proceeds and returns all-zero MACD, signal and
histogram series of the input length. -/
theorem macd_no_parameter_validation (closes : List ℚ) (span sig : ℕ) :
    add_macd closes span span sig =
      (List.replicate closes.length 0, List.replicate closes.length 0,
        List.replicate closes.length 0) := by
  have hm : ((List.range closes.length).map fun i =>
      (ewmAdjFalse span closes).getD i 0 - (ewmAdjFalse span closes).getD i 0) =
      List.replicate closes.length 0 := by
    simp [sub_self]
  have hz : ∀ i : ℕ, (List.replicate closes.length (0 : ℚ)).getD i 0 = 0 :=
    fun i => getD_replicate_self _ i 0
  unfold add_macd
  rw [hm, ewmAdjFalse_zero]
  simp [hz, sub_self, List.map_const', List.length_range]

/-! ### C4 — the RSI zero-loss rule -/

theorem rsiList_getD (closes : List ℚ) (i : ℕ) (hi : i < closes.length) :
    (rsiList closes).getD i FV.nan =
      rsiOf ((avgGain closes).getD i none) ((avgLoss closes).getD i none) := by
  simp [rsiList, rangeMap_getD, hi]

/-- **C4 (amended).** At an index where the RSI rolling averages are defined,
a zero average loss yields RSI = 100 only when the average gain is positive
(the float quotient is then `+inf` and `100 - 100/(1+inf) = 100`); when the
average gain is zero as well — in particular for a series of constant
closes — the quotient is `0/0 = NaN` and the RSI is undefined, not 100. -/
theorem rsi_zero_loss_pos_gain (closes : List ℚ) (i : ℕ) (g : ℚ)
    (hi : i < closes.length) (hg : (avgGain closes).getD i none = some g)
    (hgpos : 0 < g) (hl : (avgLoss closes).getD i none = some 0) :
    (rsiList closes).getD i FV.nan = FV.fin 100 := by
  rw [rsiList_getD closes i hi, hg, hl]
  have h0 : ¬ ((0 : ℚ) ≠ 0) := by simp
  simp [rsiOf, fdiv, fvAdd1, fvDiv100By, fvSub100, h0, hgpos]

/-- Witness for C4's amended theorem: sixteen strictly increasing closes give
average loss 0 and average gain 1 at index 14, and RSI exactly 100 there. -/
theorem rsi_zero_loss_pos_gain_witness :
    (rsiList inc16).getD 14 FV.nan = FV.fin 100 :=
  rsi_zero_loss_pos_gain inc16 14 1 (by norm_num [inc16])
    (by norm_num [avgGain, rollMeanO, gainList, deltaList, inc16, rangeMap_getD,
      winAt, seqO, List.range_succ])
    (by norm_num)
    (by norm_num [avgLoss, rollMeanO, lossList, deltaList, inc16, rangeMap_getD,
      winAt, seqO, List.range_succ])

/-- **C4 (counterexample).** On fifteen bars of constant close, the average
loss at index 14 is defined and equals 0, yet the RSI there is NaN (from the
float quotient `0/0`), not 100 — refuting the claim that a zero average loss
always gives RSI = 100. -/
theorem rsi_zero_loss_counterexample :
    (avgLoss const15).getD 14 none = some 0 ∧
      (rsiList const15).getD 14 (FV.fin 0) = FV.nan := by
  constructor
  · norm_num [avgLoss, rollMeanO, lossList, deltaList, const15, rangeMap_getD,
      winAt, seqO, List.range_succ]
  · norm_num [rsiList, rsiOf, fdiv, fvAdd1, fvDiv100By, fvSub100, avgGain, avgLoss,
      rollMeanO, gainList, lossList, deltaList, const15, rangeMap_getD, winAt, seqO,
      List.range_succ]

/-! ### C7 — Bollinger width at a zero close -/

/-- **C7 (amended).** When `close[i] == 0`, the BB60 width
`(upper - lower) / close[i]` is the infinite value `+inf` when
`upper > lower` (`-inf` when `upper < lower`) and NaN only when the bands
coincide; the division never raises an error (the embedded operation is
total and yields a value at every index). -/
theorem bb_width_zero_close (hband lband closes : List ℚ) (i : ℕ)
    (hi : i < closes.length) (hc : closes.getD i 0 = 0) :
    (bb60Width hband lband closes).getD i (FV.fin 0) =
      if lband.getD i 0 < hband.getD i 0 then FV.pinf
      else if hband.getD i 0 < lband.getD i 0 then FV.ninf
      else FV.nan := by
  have h1 : (bb60Width hband lband closes).getD i (FV.fin 0) =
      fdiv (some (hband.getD i 0 - lband.getD i 0)) (some (closes.getD i 0)) := by
    simp [bb60Width, rangeMap_getD, hi]
  rw [h1, hc]
  have h0 : ¬ ((0 : ℚ) ≠ 0) := by simp
  simp only [fdiv, if_neg h0]
  by_cases hlt : lband.getD i 0 < hband.getD i 0
  · rw [if_pos (sub_pos.2 hlt), if_pos hlt]
  · rw [if_neg (fun hp => hlt (sub_pos.1 hp)), if_neg hlt]
    by_cases hgt : hband.getD i 0 < lband.getD i 0
    · rw [if_pos (sub_neg.2 hgt), if_pos hgt]
    · rw [if_neg (fun hp => hgt (sub_neg.1 hp)), if_neg hgt]

/-- Witness for C7's amended theorem at `upper = 2`, `lower = 1`, `close = 0`. -/
theorem bb_width_zero_close_witness :
    (bb60Width [2] [1] [0]).getD 0 (FV.fin 0) =
      if ([(1 : ℚ)]).getD 0 0 < ([(2 : ℚ)]).getD 0 0 then FV.pinf
      else if ([(2 : ℚ)]).getD 0 0 < ([(1 : ℚ)]).getD 0 0 then FV.ninf
      else FV.nan :=
  bb_width_zero_close [2] [1] [0] 0 (by norm_num) (by simp)

/-- **C7 (counterexample).** With `upper = 2`, `lower = 1` and `close = 0`
the width is `+inf`, an infinite value rather than the claimed NaN. -/
theorem bb_width_zero_close_counterexample :
    (bb60Width [2] [1] [0]).getD 0 (FV.fin 0) = FV.pinf ∧ FV.pinf ≠ FV.nan := by
  refine ⟨?_, by decide⟩
  norm_num [bb60Width, fdiv, rangeMap_getD, List.range_succ]

/-! ### C2 — too-short inputs return empty results, not errors -/

theorem avgGain_getD_none (closes : List ℚ) (hc : closes.length ≤ 14) (i : ℕ) :
    (avgGain closes).getD i none = none := by
  have hlen : (gainList closes).length = closes.length := by
    simp [gainList, deltaList]
  simp only [avgGain, rollMeanO, rangeMap_getD, hlen]
  by_cases hi : i < closes.length
  · rw [if_pos hi]
    by_cases hw : 14 ≤ i + 1
    · rw [if_pos hw]
      have hi13 : i = 13 := by omega
      subst hi13
      have hg0 : (gainList closes).getD 0 none = none := by
        rw [gainList, getD_map_opt]
        simp only [deltaList, rangeMap_getD]
        by_cases h : 0 < closes.length
        · simp [h]
        · simp [h]
      have hmem : none ∈ winAt (gainList closes) 14 13 := by
        have h14 : (0 : ℕ) ∈ List.range 14 := by decide
        exact List.mem_map.2 ⟨0, h14, by simpa using hg0⟩
      rw [seqO_eq_none hmem]
      rfl
    · rw [if_neg hw]
  · rw [if_neg hi]

/-- **C2 (amended).** When the input is too short for even one defined
output, the indicator code does not fail with an `InsufficientData` error:
`fibonacci_levels` returns the empty mapping on fewer than 2 bars, `add_adx`
returns three all-NaN series of the input length on fewer than 2 bars, and
the `app10.py` RSI on at most 14 bars is an all-NaN series. -/
theorem short_input_returns_empty_results (bars : List Bar) (lb p : ℕ)
    (closes : List ℚ) (hb : bars.length < 2) (hc : closes.length ≤ 14) :
    fibonacci_levels bars lb = [] ∧
    add_adx bars p = (List.replicate bars.length none,
      List.replicate bars.length none, List.replicate bars.length none) ∧
    ∀ v ∈ rsiList closes, v = FV.nan := by
  refine ⟨by simp [fibonacci_levels, hb], by simp [add_adx, hb], ?_⟩
  intro v hv
  rcases rangeMap_mem hv with ⟨i, hi, rfl⟩
  rw [avgGain_getD_none closes hc i]
  cases h2 : (avgLoss closes).getD i none <;>
    simp [rsiOf, fdiv, fvAdd1, fvDiv100By, fvSub100]

/-- Witness for C2's amended theorem on a one-bar series and five constant
closes. -/
theorem short_input_witness :
    fibonacci_levels oneBar 7 = [] ∧
      (rsiList const5).getD 0 (FV.fin 0) = FV.nan := by
  constructor
  · exact (short_input_returns_empty_results oneBar 7 14 const5
      (by norm_num [oneBar]) (by norm_num [const5])).1
  · exact (short_input_returns_empty_results oneBar 7 14 const5
      (by norm_num [oneBar]) (by norm_num [const5])).2.2 _
      (getD_mem _ 0 (FV.fin 0) (by norm_num [rsiList, const5]))

/-- **C2 (counterexample).** On a single bar, `fibonacci_levels` returns the
empty mapping and `add_adx` returns three one-entry all-NaN series — both
return normally instead of failing with `InsufficientData`. -/
theorem insufficient_data_counterexample :
    fibonacci_levels oneBar 50 = [] ∧
      add_adx oneBar 14 = ([none], [none], [none]) := by
  constructor
  · norm_num [fibonacci_levels, oneBar]
  · norm_num [add_adx, oneBar]

/-! ### C9 — Fibonacci retracement levels -/

theorem le_foldl_max (l : List ℚ) (a : ℚ) : a ≤ l.foldl max a := by
  induction l generalizing a with
  | nil => exact le_refl a
  | cons y ts ih =>
    simp only [List.foldl_cons]
    exact le_trans (le_max_left a y) (ih (max a y))

theorem mem_le_foldl_max (l : List ℚ) (a x : ℚ) (hx : x ∈ l) : x ≤ l.foldl max a := by
  induction l generalizing a with
  | nil => cases hx
  | cons y ts ih =>
    simp only [List.foldl_cons]
    rcases List.mem_cons.1 hx with rfl | h
    · exact le_trans (le_max_right a x) (le_foldl_max ts (max a x))
    · exact ih (max a y) h

theorem le_maxQ {xs : List ℚ} {x : ℚ} (h : x ∈ xs) : x ≤ maxQ xs := by
  cases xs with
  | nil => cases h
  | cons y ts =>
    simp only [maxQ]
    rcases List.mem_cons.1 h with rfl | hmem
    · exact le_foldl_max ts x
    · exact mem_le_foldl_max ts y x hmem

theorem foldl_min_le (l : List ℚ) (a : ℚ) : l.foldl min a ≤ a := by
  induction l generalizing a with
  | nil => exact le_refl a
  | cons y ts ih =>
    simp only [List.foldl_cons]
    exact le_trans (ih (min a y)) (min_le_left a y)

theorem foldl_min_le_mem (l : List ℚ) (a x : ℚ) (hx : x ∈ l) : l.foldl min a ≤ x := by
  induction l generalizing a with
  | nil => cases hx
  | cons y ts ih =>
    simp only [List.foldl_cons]
    rcases List.mem_cons.1 hx with rfl | h
    · exact le_trans (foldl_min_le ts (min a x)) (min_le_right a x)
    · exact ih (min a y) h

theorem minQ_le {xs : List ℚ} {x : ℚ} (h : x ∈ xs) : minQ xs ≤ x := by
  cases xs with
  | nil => cases h
  | cons y ts =>
    simp only [minQ]
    rcases List.mem_cons.1 h with rfl | hmem
    · exact foldl_min_le ts x
    · exact foldl_min_le_mem ts y x hmem

theorem fibDiff_nonneg (bars : List Bar) (lb : ℕ)
    (hb : ∀ b ∈ bars, b.low ≤ b.high) : 0 ≤ fibDiff bars lb := by
  unfold fibDiff fibSwingHigh fibSwingLow
  by_cases hwe : fibWindow bars lb = []
  · simp [hwe, maxQ, minQ]
  · obtain ⟨b, hbw⟩ := List.exists_mem_of_ne_nil _ hwe
    have hsub : fibWindow bars lb ⊆ bars := by
      unfold fibWindow
      exact List.drop_subset _ _
    have h1 : minQ ((fibWindow bars lb).map (·.low)) ≤ b.low :=
      minQ_le (List.mem_map_of_mem _ hbw)
    have h2 : b.high ≤ maxQ ((fibWindow bars lb).map (·.high)) :=
      le_maxQ (List.mem_map_of_mem _ hbw)
    have h3 := hb b (hsub hbw)
    linarith

/-- **C9.** For at least two bars and `lookback ≥ 2` (for OHLC-consistent
bars with `low ≤ high`), the Fibonacci result maps "0.0" to the swing high
(the maximum High over the lookback window), "1.0" to the swing low (the
minimum Low), and the seven ratio levels decrease monotonically as the ratio
increases from 0.0 to 1.0. -/
theorem fibonacci_levels_correct (bars : List Bar) (lb : ℕ)
    (h2 : 2 ≤ bars.length) (hlb : 2 ≤ lb)
    (hb : ∀ b ∈ bars, b.low ≤ b.high) : fibSpecHolds bars lb := by
  have hne : ¬ (bars.length < 2) := by omega
  have hd : 0 ≤ fibDiff bars lb := fibDiff_nonneg bars lb hb
  have hlow : fibSwingLow bars lb = fibSwingHigh bars lb - fibDiff bars lb := by
    unfold fibDiff
    ring
  have e1 : (fibonacci_levels bars lb).lookup "0.0" = some (fibSwingHigh bars lb) := by
    unfold fibonacci_levels
    rw [if_neg hne]
    rfl
  have e2 : (fibonacci_levels bars lb).lookup "1.0" = some (fibSwingLow bars lb) := by
    unfold fibonacci_levels
    rw [if_neg hne]
    rfl
  have l0 : fibLevel bars lb "0.0" = fibSwingHigh bars lb := by
    unfold fibLevel fibonacci_levels
    rw [if_neg hne]
    rfl
  have l236 : fibLevel bars lb "0.236" =
      fibSwingHigh bars lb - 236 / 1000 * fibDiff bars lb := by
    unfold fibLevel fibonacci_levels
    rw [if_neg hne]
    rfl
  have l382 : fibLevel bars lb "0.382" =
      fibSwingHigh bars lb - 382 / 1000 * fibDiff bars lb := by
    unfold fibLevel fibonacci_levels
    rw [if_neg hne]
    rfl
  have l5 : fibLevel bars lb "0.5" =
      fibSwingHigh bars lb - 1 / 2 * fibDiff bars lb := by
    unfold fibLevel fibonacci_levels
    rw [if_neg hne]
    rfl
  have l618 : fibLevel bars lb "0.618" =
      fibSwingHigh bars lb - 618 / 1000 * fibDiff bars lb := by
    unfold fibLevel fibonacci_levels
    rw [if_neg hne]
    rfl
  have l786 : fibLevel bars lb "0.786" =
      fibSwingHigh bars lb - 786 / 1000 * fibDiff bars lb := by
    unfold fibLevel fibonacci_levels
    rw [if_neg hne]
    rfl
  have l10 : fibLevel bars lb "1.0" = fibSwingLow bars lb := by
    unfold fibLevel fibonacci_levels
    rw [if_neg hne]
    rfl
  refine ⟨e1, e2, ?_, ?_, ?_, ?_, ?_, ?_⟩
  · rw [l236, l0]
    linarith
  · rw [l382, l236]
    linarith
  · rw [l5, l382]
    linarith
  · rw [l618, l5]
    linarith
  · rw [l786, l618]
    linarith
  · rw [l10, l786, hlow]
    linarith

/-- Witness for C9 on the spec's concrete scenario
High = [110, 100], Low = [90, 95], lookback 2. -/
theorem fibonacci_levels_witness : fibSpecHolds bars2 2 :=
  fibonacci_levels_correct bars2 2 (by norm_num [bars2]) (by norm_num)
    (by norm_num [bars2])

/-! ### C8 — Bollinger band ordering -/

theorem rollStdP_getD_nonneg (zs : List ℚ) (w i : ℕ) {s : ℝ}
    (h : (rollStdP zs w).getD i none = some s) : 0 ≤ s := by
  simp only [rollStdP, rangeMap_getD] at h
  by_cases hi : i < zs.length
  · rw [if_pos hi] at h
    by_cases hc : 2 ≤ w ∧ w ≤ i + 1
    · rw [if_pos hc] at h
      have hs := Option.some.inj h
      exact hs ▸ Real.sqrt_nonneg _
    · rw [if_neg hc] at h
      cases h
  · rw [if_neg hi] at h
    cases h

theorem bollinger_ordered_aux (closes : List ℚ) (p : ℕ) (k : ℚ) (hk : 0 ≤ k) :
    bandsOrdered (add_bollinger closes p k) := by
  intro i u hu m hm l hl
  by_cases hi : i < closes.length
  · have hu1 : (add_bollinger closes p k).1.getD i none = bbUpperAt closes p k i := by
      simp only [add_bollinger]
      rw [rangeMap_getD, if_pos hi]
    have hl1 : (add_bollinger closes p k).2.2.getD i none = bbLowerAt closes p k i := by
      simp only [add_bollinger]
      rw [rangeMap_getD, if_pos hi]
    have hm1 : (add_bollinger closes p k).2.1.getD i none =
        Option.map (fun q : ℚ => (q : ℝ)) ((rollMeanP closes p).getD i none) := by
      simp only [add_bollinger]
      exact getD_map_opt _ _ _
    rw [hu1] at hu
    rw [hm1] at hm
    rw [hl1] at hl
    cases hmean : (rollMeanP closes p).getD i none with
    | none =>
      rw [hmean] at hm
      exact absurd hm (by simp)
    | some mq =>
      cases hstd : (rollStdP closes p).getD i none with
      | none =>
        unfold bbUpperAt at hu
        rw [hmean, hstd] at hu
        exact absurd hu (by simp)
      | some s =>
        unfold bbUpperAt at hu
        unfold bbLowerAt at hl
        rw [hmean, hstd] at hu hl
        rw [hmean] at hm
        have hu2 : u = (mq : ℝ) + s * (k : ℝ) := by simpa using hu.symm
        have hl2 : l = (mq : ℝ) - s * (k : ℝ) := by simpa using hl.symm
        have hm2 : m = (mq : ℝ) := by simpa using hm.symm
        have hs : (0 : ℝ) ≤ s := rollStdP_getD_nonneg closes p i hstd
        have hk2 : (0 : ℝ) ≤ (k : ℝ) := by exact_mod_cast hk
        have hsk : (0 : ℝ) ≤ s * (k : ℝ) := mul_nonneg hs hk2
        constructor
        · rw [hl2, hm2]
          linarith
        · rw [hm2, hu2]
          linarith
  · have hnone : (add_bollinger closes p k).1.getD i none = none := by
      simp only [add_bollinger]
      exact getD_out _ _ _ (by simpa using Nat.le_of_not_lt hi)
    rw [hnone] at hu
    exact absurd hu (by simp)

/-- **C8.** At every index where the Bollinger band values are defined,
`upper ≥ mid ≥ lower`, for any window and any multiplier `k ≥ 0` — for
`tradingbot.py`'s `add_bollinger` and for the window-20, k = 2 bands of
`app10.py` (`upper = mid + k·std`, `lower = mid − k·std`, with `std` the
nonnegative standard deviation of the same window as `mid`). -/
theorem bollinger_upper_mid_lower (closes : List ℚ) (p : ℕ) (k : ℚ) (hk : 0 ≤ k) :
    bandsOrdered (add_bollinger closes p k) ∧ bandsOrdered (app10BB closes) := by
  refine ⟨bollinger_ordered_aux closes p k hk, ?_⟩
  unfold app10BB
  exact bollinger_ordered_aux closes 20 2 (by norm_num)

/-- Witness for C8's theorem at window 2, multiplier 2, closes `[1, 2]`. -/
theorem bollinger_upper_mid_lower_witness :
    bandsOrdered (add_bollinger [1, 2] 2 2) ∧ bandsOrdered (app10BB [1, 2]) :=
  bollinger_upper_mid_lower [1, 2] 2 2 (by norm_num)

/-! ### C5 — ADX, +DI and -DI lie in [0, 100] -/

theorem barBounds (bars : List Bar)
    (hb : ∀ b ∈ bars, b.low ≤ b.close ∧ b.close ≤ b.high) (i : ℕ) :
    lowAt bars i ≤ closeAt bars i ∧ closeAt bars i ≤ highAt bars i := by
  unfold lowAt closeAt highAt
  by_cases h : i < bars.length
  · exact hb _ (getD_mem bars i barD h)
  · rw [getD_out bars i barD (Nat.le_of_not_lt h)]
    simp [barD]

theorem dm_tr_bounds (bars : List Bar)
    (hb : ∀ b ∈ bars, b.low ≤ b.close ∧ b.close ≤ b.high) (j : ℕ) :
    0 ≤ trAt bars j ∧
      0 ≤ plusDMAt bars j ∧ plusDMAt bars j ≤ trAt bars j ∧
      0 ≤ minusDMAt bars j ∧ minusDMAt bars j ≤ trAt bars j := by
  obtain ⟨hlc, hch⟩ := barBounds bars hb j
  obtain ⟨hlc1, hch1⟩ := barBounds bars hb (j + 1)
  have htr1 : 0 ≤ highAt bars (j + 1) - lowAt bars (j + 1) := by linarith
  have htr0 : 0 ≤ trAt bars j := le_trans htr1 (le_max_left _ _)
  have htr2 : |highAt bars (j + 1) - closeAt bars j| ≤ trAt bars j :=
    le_trans (le_max_left _ _) (le_max_right _ _)
  have htr3 : |lowAt bars (j + 1) - closeAt bars j| ≤ trAt bars j :=
    le_trans (le_max_right _ _) (le_max_right _ _)
  refine ⟨htr0, ?_, ?_, ?_, ?_⟩
  · unfold plusDMAt
    split_ifs with h
    · linarith [h.2]
    · exact le_refl 0
  · unfold plusDMAt
    split_ifs with h
    · have h1 : upAt bars j ≤ highAt bars (j + 1) - closeAt bars j := by
        unfold upAt
        linarith
      exact le_trans (le_trans h1 (le_abs_self _)) htr2
    · exact htr0
  · unfold minusDMAt
    split_ifs with h
    · linarith [h.2]
    · exact le_refl 0
  · unfold minusDMAt
    split_ifs with h
    · have h1 : downAt bars j ≤ closeAt bars j - lowAt bars (j + 1) := by
        unfold downAt
        linarith
      have h2 : closeAt bars j - lowAt bars (j + 1) ≤
          |lowAt bars (j + 1) - closeAt bars j| := by
        rw [abs_sub_comm]
        exact le_abs_self _
      exact le_trans (le_trans h1 h2) htr3
    · exact htr0

theorem dm_tr_list_bounds (bars : List Bar)
    (hb : ∀ b ∈ bars, b.low ≤ b.close ∧ b.close ≤ b.high) (k : ℕ) :
    0 ≤ (trList bars).getD k 0 ∧
      0 ≤ (plusDMList bars).getD k 0 ∧
      (plusDMList bars).getD k 0 ≤ (trList bars).getD k 0 ∧
      0 ≤ (minusDMList bars).getD k 0 ∧
      (minusDMList bars).getD k 0 ≤ (trList bars).getD k 0 := by
  simp only [trList, plusDMList, minusDMList, rangeMap_getD]
  by_cases h : k < bars.length - 1
  · simp only [if_pos h]
    exact dm_tr_bounds bars hb k
  · simp only [if_neg h]
    norm_num

theorem windowP_sum_nonneg {xs : List ℚ} (hx : ∀ k, 0 ≤ xs.getD k 0) (w i : ℕ) :
    0 ≤ (windowP xs w i).sum := by
  apply List.sum_nonneg
  intro x hxm
  rcases rangeMap_mem hxm with ⟨j, _, rfl⟩
  exact hx _

theorem windowP_sum_le {xs ys : List ℚ} (h : ∀ k, xs.getD k 0 ≤ ys.getD k 0) (w i : ℕ) :
    (windowP xs w i).sum ≤ (windowP ys w i).sum := by
  unfold windowP
  exact List.sum_le_sum fun j _ => h _

theorem rollSumP_getD (zs : List ℚ) (w i : ℕ) :
    (rollSumP zs w).getD i none =
      if i < zs.length ∧ w ≤ i + 1 then some (windowP zs w i).sum else none := by
  simp only [rollSumP, rangeMap_getD]
  by_cases h1 : i < zs.length
  · by_cases h2 : w ≤ i + 1
    · simp [h1, h2]
    · simp [h1, h2]
  · simp [h1]

theorem optDiv100_bounds {x y q : ℚ} (hx : 0 ≤ x) (hxy : x ≤ y)
    (h : optDiv100 (some x) (some y) = some q) : 0 ≤ q ∧ q ≤ 100 := by
  simp only [optDiv100] at h
  by_cases hy : y = 0
  · rw [if_pos hy] at h
    cases h
  · rw [if_neg hy] at h
    have hq := Option.some.inj h
    have hy0 : 0 < y := lt_of_le_of_ne (le_trans hx hxy) (Ne.symm hy)
    subst hq
    constructor
    · exact div_nonneg (by linarith) (le_of_lt hy0)
    · rw [div_le_iff₀ hy0]
      linarith

theorem plusDI_bounded (bars : List Bar) (p : ℕ)
    (hb : ∀ b ∈ bars, b.low ≤ b.close ∧ b.close ≤ b.high) :
    boundedBy100 (plusDI bars p) := by
  intro q hq
  rcases rangeMap_mem hq with ⟨i, hi, heq⟩
  rw [rollSumP_getD, rollSumP_getD] at heq
  have hlen1 : (plusDMList bars).length = bars.length - 1 := by simp [plusDMList]
  have hlen2 : (trList bars).length = bars.length - 1 := by simp [trList]
  rw [hlen1, hlen2] at heq
  by_cases hc : i < bars.length - 1 ∧ p ≤ i + 1
  · rw [if_pos hc, if_pos hc] at heq
    exact optDiv100_bounds
      (windowP_sum_nonneg (fun k => (dm_tr_list_bounds bars hb k).2.1) p i)
      (windowP_sum_le (fun k => (dm_tr_list_bounds bars hb k).2.2.1) p i) heq
  · rw [if_neg hc, if_neg hc] at heq
    simp [optDiv100] at heq

theorem minusDI_bounded (bars : List Bar) (p : ℕ)
    (hb : ∀ b ∈ bars, b.low ≤ b.close ∧ b.close ≤ b.high) :
    boundedBy100 (minusDI bars p) := by
  intro q hq
  rcases rangeMap_mem hq with ⟨i, hi, heq⟩
  rw [rollSumP_getD, rollSumP_getD] at heq
  have hlen1 : (minusDMList bars).length = bars.length - 1 := by simp [minusDMList]
  have hlen2 : (trList bars).length = bars.length - 1 := by simp [trList]
  rw [hlen1, hlen2] at heq
  by_cases hc : i < bars.length - 1 ∧ p ≤ i + 1
  · rw [if_pos hc, if_pos hc] at heq
    exact optDiv100_bounds
      (windowP_sum_nonneg (fun k => (dm_tr_list_bounds bars hb k).2.2.2.1) p i)
      (windowP_sum_le (fun k => (dm_tr_list_bounds bars hb k).2.2.2.2) p i) heq
  · rw [if_neg hc, if_neg hc] at heq
    simp [optDiv100] at heq

theorem dxList_bounded (bars : List Bar) (p : ℕ)
    (hb : ∀ b ∈ bars, b.low ≤ b.close ∧ b.close ≤ b.high) :
    boundedBy100 (dxList bars p) := by
  intro q hq
  rcases rangeMap_mem hq with ⟨i, hi, heq⟩
  cases ha : (plusDI bars p).getD i none with
  | none =>
    rw [ha] at heq
    simp [dxAt] at heq
  | some x =>
    cases hc : (minusDI bars p).getD i none with
    | none =>
      rw [ha, hc] at heq
      simp [dxAt] at heq
    | some y =>
      rw [ha, hc] at heq
      have hxlen : i < (plusDI bars p).length := by
        by_contra hcon
        rw [getD_out _ _ _ (Nat.le_of_not_lt hcon)] at ha
        cases ha
      have hylen : i < (minusDI bars p).length := by
        by_contra hcon
        rw [getD_out _ _ _ (Nat.le_of_not_lt hcon)] at hc
        cases hc
      have hx : 0 ≤ x ∧ x ≤ 100 :=
        plusDI_bounded bars p hb x (ha ▸ getD_mem _ i none hxlen)
      have hy : 0 ≤ y ∧ y ≤ 100 :=
        minusDI_bounded bars p hb y (hc ▸ getD_mem _ i none hylen)
      simp only [dxAt] at heq
      by_cases hxy : x + y = 0
      · rw [if_pos hxy] at heq
        cases heq
      · rw [if_neg hxy] at heq
        have hq2 := Option.some.inj heq
        subst hq2
        have hsum : 0 < x + y :=
          lt_of_le_of_ne (by linarith [hx.1, hy.1]) (Ne.symm hxy)
        constructor
        · exact div_nonneg (mul_nonneg (by norm_num) (abs_nonneg _)) (le_of_lt hsum)
        · rw [div_le_iff₀ hsum]
          have habs : |x - y| ≤ x + y :=
            abs_le.2 ⟨by linarith [hx.1, hy.1], by linarith [hx.1, hy.1]⟩
          linarith

theorem adxList_bounded (bars : List Bar) (p : ℕ) (hp : 1 ≤ p)
    (hb : ∀ b ∈ bars, b.low ≤ b.close ∧ b.close ≤ b.high) :
    boundedBy100 (adxList bars p) := by
  intro q hq
  unfold adxList rollMeanO at hq
  rcases rangeMap_mem hq with ⟨i, hi, heq⟩
  by_cases hw : p ≤ i + 1
  · rw [if_pos hw] at heq
    rcases Option.map_eq_some'.1 heq with ⟨l, hseq, hql⟩
    have hlen : l.length = p := by
      have h1 := seqO_length hseq
      rwa [winAt_length] at h1
    have hmem : ∀ x ∈ l, 0 ≤ x ∧ x ≤ 100 := by
      intro x hx
      have h1 : some x ∈ winAt (dxList bars p) p i := seqO_mem hseq x hx
      rcases winAt_mem h1 with h2 | h2
      · exact dxList_bounded bars p hb x h2
      · cases h2
    have hsum0 : 0 ≤ l.sum := List.sum_nonneg fun x hx => (hmem x hx).1
    have hsum1 : l.sum ≤ (p : ℚ) * 100 := by
      have h2 := List.sum_le_card_nsmul l 100 fun x hx => (hmem x hx).2
      rwa [hlen, nsmul_eq_mul] at h2
    have hp0 : (0 : ℚ) < (p : ℚ) := by exact_mod_cast hp
    rw [← hql]
    constructor
    · exact div_nonneg hsum0 (le_of_lt hp0)
    · rw [div_le_iff₀ hp0]
      linarith
  · rw [if_neg hw] at heq
    cases heq

/-- **C5.** For any series of OHLC-consistent bars (`low ≤ open ≤ high` and
`low ≤ close ≤ high`) and any window ≥ 1, every defined value of the +DI,
-DI and ADX series returned by `add_adx` lies in the closed interval
`[0, 100]`. -/
theorem adx_di_in_range (bars : List Bar) (p : ℕ) (hp : 1 ≤ p)
    (hb : ∀ b ∈ bars, (b.low ≤ b.opn ∧ b.opn ≤ b.high) ∧
      b.low ≤ b.close ∧ b.close ≤ b.high) :
    boundedBy100 (add_adx bars p).1 ∧ boundedBy100 (add_adx bars p).2.1 ∧
      boundedBy100 (add_adx bars p).2.2 := by
  have hb2 : ∀ b ∈ bars, b.low ≤ b.close ∧ b.close ≤ b.high := fun b h => (hb b h).2
  unfold add_adx
  by_cases hn : bars.length < 2
  · rw [if_pos hn]
    refine ⟨?_, ?_, ?_⟩ <;>
      · intro q hq
        exact absurd (List.eq_of_mem_replicate hq) (by simp)
  · rw [if_neg hn]
    refine ⟨?_, ?_, ?_⟩
    · intro q hq
      rcases List.mem_cons.1 hq with h1 | h1
      · cases h1
      · exact plusDI_bounded bars p hb2 q h1
    · intro q hq
      rcases List.mem_cons.1 hq with h1 | h1
      · cases h1
      · exact minusDI_bounded bars p hb2 q h1
    · intro q hq
      rcases List.mem_cons.1 hq with h1 | h1
      · cases h1
      · exact adxList_bounded bars p hp hb2 q h1

/-- Witness for C5 on two trending bars with window 1 (where
+DI = 200/3, -DI = 0 and ADX = 100 are all defined). -/
theorem adx_di_in_range_witness :
    boundedBy100 (add_adx demoBars 1).1 ∧ boundedBy100 (add_adx demoBars 1).2.1 ∧
      boundedBy100 (add_adx demoBars 1).2.2 :=
  adx_di_in_range demoBars 1 (by norm_num) (by norm_num [demoBars])

/-! ### C10 — confidence score and final verdict -/

/-- **C10.** For any outcome of the six boolean checks, the confidence score
`int((bullish/6)*100)` lies in `{0, 16, 33, 50, 66, 83, 100}`; the final
verdict is BUY exactly when at least 5 checks hold, and SELL exactly when at
most 2 hold. -/
theorem confidence_score_verdict : ∀ c1 c2 c3 c4 c5 c6 : Bool,
    confidence (bullishCount c1 c2 c3 c4 c5 c6) ∈ ([0, 16, 33, 50, 66, 83, 100] : List ℕ) ∧
    (finalVerdict (confidence (bullishCount c1 c2 c3 c4 c5 c6)) = Verdict.buy ↔
      5 ≤ bullishCount c1 c2 c3 c4 c5 c6) ∧
    (finalVerdict (confidence (bullishCount c1 c2 c3 c4 c5 c6)) = Verdict.sell ↔
      bullishCount c1 c2 c3 c4 c5 c6 ≤ 2) := by
  decide

end TB
